import Mathlib

/-!
# Verification of the floww library

A shallow embedding of `src/lib.rs` of the `floww` crate, together with
theorems settling the specification's claims about it.

Modelling conventions:

* Rust `String` payloads travel on the wire as UTF-8 byte sequences; we model
  them as `Str := List Nat`, the list of their bytes.
* A wire `Point` is `(usize, f32, f32, f32)`.  The serializer (bincode 1.x,
  default configuration: little-endian, fixed-width integers) copies the four
  bytes of each `f32` verbatim, so for the protocol layer an `f32` is modelled
  by its 32-bit pattern (`Nat < 2^32`) and `usize` by `Nat < 2^64`.
* For the timeline algebra and the MIDI adapter, where `f32` values are
  added, negated, compared and divided, times are idealised as exact
  rationals `ℚ` (the claims under study are structural — lengths, clamping,
  exact cancellation — and do not hinge on rounding; NaN is excluded by the
  spec).
* `HashMap<String, usize>` is modelled extensionally as `Str → Option Nat`
  (insertion overwrites).
* `unpacket`'s `&mut [Floww]` slice becomes explicit state passing on
  `List FlowwW`; the mutable loop over packets becomes the structural
  recursion `unpacketGo`.
-/

namespace Floww

/-- A wire string: the UTF-8 bytes of a Rust `String`. -/
abbrev Str := List Nat

/-- Wire-level point `(id, time, note, vel)`: `usize` value and the three
`f32` fields represented by their 32-bit patterns. -/
abbrev PointW := Nat × Nat × Nat × Nat

/-- `Floww = Vec<Point>` at the wire level. -/
abbrev FlowwW := List PointW

/-- The `FlowwPacket` enum: `Msg(String) | Track(String) | Point(Point)`. -/
inductive FlowwPacket : Type
  | Msg : Str → FlowwPacket
  | Track : Str → FlowwPacket
  | Point : PointW → FlowwPacket
deriving DecidableEq

/-- `std::usize::MAX` on a 64-bit target, the decoder's "no destination"
sentinel. -/
def usizeMax : Nat := 2 ^ 64 - 1

/-- The loop body of `unpacket`, with the `current` destination index and the
destination array threaded explicitly; returns the final destinations and the
extracted messages in order. -/
def unpacketGo (map : Str → Option Nat) :
    Nat → List FlowwW → List FlowwPacket → List FlowwW × List Str
  | _, flowws, [] => (flowws, [])
  | current, flowws, FlowwPacket.Msg msg :: rest =>
      let r := unpacketGo map current flowws rest
      (r.1, msg :: r.2)
  | _, flowws, FlowwPacket.Track name :: rest =>
      unpacketGo map
        (match map name with
         | some index => index
         | none => usizeMax) flowws rest
  | current, flowws, FlowwPacket.Point point :: rest =>
      if current = usizeMax then
        unpacketGo map current flowws rest
      else if flowws.length ≤ current then
        unpacketGo map current flowws rest
      else
        unpacketGo map current
          (flowws.set current (flowws.getD current [] ++ [point])) rest

/-- `unpacket(flowws, map, packets)`: the decoder entry point.  The source
initialises `let mut current = 0;` — a fresh local on every call. -/
def unpacket (flowws : List FlowwW) (map : Str → Option Nat)
    (packets : List FlowwPacket) : List FlowwW × List Str :=
  unpacketGo map 0 flowws packets

/-- The destination index held by the loop after processing a packet list,
starting from `c`: `Track` packets overwrite it, everything else leaves it. -/
def stateAfter (map : Str → Option Nat) : Nat → List FlowwPacket → Nat
  | c, [] => c
  | _, FlowwPacket.Track name :: rest =>
      stateAfter map
        (match map name with
         | some index => index
         | none => usizeMax) rest
  | c, FlowwPacket.Msg _ :: rest => stateAfter map c rest
  | c, FlowwPacket.Point _ :: rest => stateAfter map c rest

/-- A batch is guarded when no `Point` packet occurs before its first `Track`
packet: its routing never consults the incoming destination index. -/
def guarded : List FlowwPacket → Bool
  | [] => true
  | FlowwPacket.Msg _ :: rest => guarded rest
  | FlowwPacket.Track _ :: _ => true
  | FlowwPacket.Point _ :: _ => false

/-- The `Point` payloads of a packet list, in order. -/
def pointsOf (ps : List FlowwPacket) : List PointW :=
  ps.filterMap fun q =>
    match q with
    | FlowwPacket.Point p => some p
    | _ => none

/-- The `Msg` payloads of a packet list, in order. -/
def msgsOf (ps : List FlowwPacket) : List Str :=
  ps.filterMap fun q =>
    match q with
    | FlowwPacket.Msg m => some m
    | _ => none

/-! ## Wire format (bincode 1.x, default configuration)

`Vec<FlowwPacket>::encode` is `bincode::serialize` and `decoded` is
`bincode::deserialize_from`.  bincode's default configuration writes
fixed-width little-endian integers: a `Vec` is a `u64` element count followed
by the elements, a `String` is a `u64` byte length followed by the UTF-8
bytes, an enum is a `u32` variant tag followed by the payload, `usize` is a
`u64`, and an `f32` is its four pattern bytes.  `deserialize_from` reads from
a stream and ignores any trailing bytes. -/

/-- `k` little-endian bytes of `n` (the low `8*k` bits). -/
def encBytes : Nat → Nat → List Nat
  | 0, _ => []
  | k + 1, n => n % 256 :: encBytes k (n / 256)

/-- A `u64`, little-endian. -/
def encodeU64 (n : Nat) : List Nat := encBytes 8 n

/-- A `u32`, little-endian. -/
def encodeU32 (n : Nat) : List Nat := encBytes 4 n

/-- A `String`: `u64` byte length, then the bytes. -/
def encodeStr (s : Str) : List Nat := encodeU64 s.length ++ s

/-- A `Point` `(usize, f32, f32, f32)`: `u64` id, then the three `f32`
patterns, four bytes each. -/
def encodePointW (p : PointW) : List Nat :=
  encodeU64 p.1 ++ encodeU32 p.2.1 ++ encodeU32 p.2.2.1 ++ encodeU32 p.2.2.2

/-- One `FlowwPacket`: `u32` variant tag (`Msg = 0`, `Track = 1`,
`Point = 2`), then the payload. -/
def encodePacket : FlowwPacket → List Nat
  | FlowwPacket.Msg s => encodeU32 0 ++ encodeStr s
  | FlowwPacket.Track s => encodeU32 1 ++ encodeStr s
  | FlowwPacket.Point p => encodeU32 2 ++ encodePointW p

/-- `Vec<FlowwPacket>::encode()`: `u64` count, then the packets. -/
def encode (ps : List FlowwPacket) : List Nat :=
  encodeU64 ps.length ++ (ps.map encodePacket).flatten

/-- Read `k` little-endian bytes as a number, returning the unconsumed
tail; fails on short input. -/
def readBytes : Nat → List Nat → Option (Nat × List Nat)
  | 0, bs => some (0, bs)
  | _ + 1, [] => none
  | k + 1, b :: bs => (readBytes k bs).map fun r => (b + 256 * r.1, r.2)

/-- Read `k` raw bytes, returning them and the unconsumed tail. -/
def readChunk : Nat → List Nat → Option (List Nat × List Nat)
  | 0, bs => some ([], bs)
  | _ + 1, [] => none
  | k + 1, b :: bs => (readChunk k bs).map fun r => (b :: r.1, r.2)

/-- Read a `String`: `u64` length, then that many bytes. -/
def readStr (bs : List Nat) : Option (Str × List Nat) :=
  match readBytes 8 bs with
  | none => none
  | some (len, rest) => readChunk len rest

/-- Read a `Point`. -/
def readPointW (bs : List Nat) : Option (PointW × List Nat) :=
  match readBytes 8 bs with
  | none => none
  | some (id, r1) =>
    match readBytes 4 r1 with
    | none => none
    | some (t, r2) =>
      match readBytes 4 r2 with
      | none => none
      | some (nt, r3) =>
        match readBytes 4 r3 with
        | none => none
        | some (v, r4) => some ((id, t, nt, v), r4)

/-- Read one `FlowwPacket`: tag dispatch. -/
def readPacket (bs : List Nat) : Option (FlowwPacket × List Nat) :=
  match readBytes 4 bs with
  | none => none
  | some (tag, rest) =>
    if tag = 0 then (readStr rest).map fun r => (FlowwPacket.Msg r.1, r.2)
    else if tag = 1 then (readStr rest).map fun r => (FlowwPacket.Track r.1, r.2)
    else if tag = 2 then (readPointW rest).map fun r => (FlowwPacket.Point r.1, r.2)
    else none

/-- Read `k` consecutive packets. -/
def readPackets : Nat → List Nat → Option (List FlowwPacket × List Nat)
  | 0, bs => some ([], bs)
  | k + 1, bs =>
    match readPacket bs with
    | none => none
    | some (p, rest) => (readPackets k rest).map fun r => (p :: r.1, r.2)

/-- `decoded()`: `bincode::deserialize_from` for `Vec<FlowwPacket>` — a
`u64` count then that many packets, trailing bytes ignored; any parse
failure is returned to the caller as an error (`none`, modelling
`Result::Err`). -/
def decoded (bs : List Nat) : Option (List FlowwPacket) :=
  match readBytes 8 bs with
  | none => none
  | some (n, rest) => (readPackets n rest).map Prod.fst

/-- A wire string a real `String` can denote: bytes below 256, length
representable in a `u64`. -/
def validStr (s : Str) : Bool :=
  decide (s.length < 2 ^ 64) && s.all fun b => b < 256

/-- A packet a real `FlowwPacket` can denote: in-range id and `f32`
patterns, valid strings. -/
def validPacket : FlowwPacket → Bool
  | FlowwPacket.Msg s => validStr s
  | FlowwPacket.Track s => validStr s
  | FlowwPacket.Point p =>
      decide (p.1 < 2 ^ 64) && decide (p.2.1 < 2 ^ 32) &&
        decide (p.2.2.1 < 2 ^ 32) && decide (p.2.2.2 < 2 ^ 32)

/-! ## Timeline algebra

The Rust algebra is generic over the `Timed` trait
(`time / time_mut / end / scale`); `*p.time_mut() += shift` becomes
`withTime p (time p + shift)`.  Times are idealised as `ℚ`. -/

/-- The `Timed` trait. -/
class Timed (α : Type) where
  time : α → ℚ
  withTime : α → ℚ → α
  endt : α → ℚ
  scalet : α → ℚ → α

/-- `shift_time(t)`: no-op on empty; otherwise add `max t (-begin)` to every
time, where `begin` is the FIRST element's time in current order. -/
def shift_time {α : Type} [Timed α] (l : List α) (t : ℚ) : List α :=
  match l with
  | [] => l
  | p :: _ =>
      let shift := max t (-(Timed.time p))
      l.map fun q => Timed.withTime q (Timed.time q + shift)

/-- `start_from_zero()`: no-op on empty; otherwise add `-begin` to every
time. -/
def start_from_zero {α : Type} [Timed α] (l : List α) : List α :=
  match l with
  | [] => l
  | p :: _ =>
      let shift := -(Timed.time p)
      l.map fun q => Timed.withTime q (Timed.time q + shift)

/-- `fuse(other)`: if `self` is empty, become `other`; otherwise shift
`other` by the end-time of `self`'s LAST element and append. -/
def fuse {α : Type} [Timed α] (l other : List α) : List α :=
  match l.getLast? with
  | none => other
  | some p => l ++ shift_time other (Timed.endt p)

/-- `Point = (id, time, note, vel)` with exact rational `f32` fields, for
the algebra and MIDI-adapter claims. -/
abbrev QPoint := Nat × ℚ × ℚ × ℚ

instance : Timed QPoint where
  time p := p.2.1
  withTime p t := (p.1, t, p.2.2.1, p.2.2.2)
  endt p := p.2.1
  scalet p factor := (p.1, p.2.1 * factor, p.2.2.1, p.2.2.2)

/-! ## Sheet registry -/

/-- `FlowwSheet`: parallel name list, timeline list, and name→index map
(the `HashMap` modelled extensionally). -/
structure FlowwSheet : Type where
  flowws : List FlowwW
  names : List Str
  map : Str → Option Nat

/-- `FlowwSheet::new()` / `default()`. -/
def FlowwSheet.new : FlowwSheet :=
  { flowws := [], names := [], map := fun _ => none }

/-- `HashMap::insert`: overwrite the binding for `k`. -/
def mapInsert (m : Str → Option Nat) (k : Str) (v : Nat) : Str → Option Nat :=
  fun s => if s = k then some v else m s

/-- `add(floww, name)`: push the timeline, bind the name to the next
sequential index, push the name. -/
def FlowwSheet.add (s : FlowwSheet) (floww : FlowwW) (name : Str) : FlowwSheet :=
  { flowws := s.flowws ++ [floww],
    names := s.names ++ [name],
    map := mapInsert s.map name s.flowws.length }

/-- `reset(name, new)`: replace the timeline at the name's index in place;
report whether the name was found. -/
def FlowwSheet.reset (s : FlowwSheet) (name : Str) (new : FlowwW) :
    FlowwSheet × Bool :=
  match s.map name with
  | some index => ({ s with flowws := s.flowws.set index new }, true)
  | none => (s, false)

/-- One mutating Sheet operation. -/
inductive SheetOp : Type
  | add : FlowwW → Str → SheetOp
  | reset : Str → FlowwW → SheetOp

/-- Apply one operation (dropping `reset`'s Boolean result). -/
def applyOp (s : FlowwSheet) : SheetOp → FlowwSheet
  | SheetOp.add f n => s.add f n
  | SheetOp.reset n f => (s.reset n f).1

/-- Run a sequence of operations from the empty Sheet. -/
def runOps (ops : List SheetOp) : FlowwSheet :=
  ops.foldl applyOp FlowwSheet.new

/-- The names an operation sequence adds, in order. -/
def addNames : List SheetOp → List Str
  | [] => []
  | SheetOp.add _ n :: rest => n :: addNames rest
  | SheetOp.reset _ _ :: rest => addNames rest

/-- The Sheet consistency invariant: parallel lengths agree and the map
sends the `i`-th name to `i`. -/
def consistent (s : FlowwSheet) : Prop :=
  s.names.length = s.flowws.length ∧
    ∀ i, i < s.names.length → s.map (s.names.getD i []) = some i

/-! ## MIDI adapter

`midi_to_floww` walks every track of the external `apres::MIDI` value,
integrating delta ticks into seconds.  The external collaborator is modelled
by its boundary contract: a ppqn, the `(delta-ticks, event-id)` track lists,
and the event lookup. -/

/-- The `apres::MIDIEvent` variants the adapter inspects. -/
inductive MIDIEvent : Type
  | NoteOn : Nat → Nat → Nat → MIDIEvent
  | NoteOff : Nat → Nat → Nat → MIDIEvent
  | SetTempo : Nat → MIDIEvent
  | Other : MIDIEvent

/-- The boundary view of an `apres::MIDI` value. -/
structure MIDI : Type where
  ppqn : ℚ
  tracks : List (List (Nat × Nat))
  events : Nat → Option MIDIEvent

/-- The inner loop of `midi_to_floww` over one track: threads the running
`time` (local to the track), the tempo multiplier and the accumulated
floww; returns the multiplier and floww for the next track. -/
def midiTrackGo (midi : MIDI) :
    ℚ → ℚ → List QPoint → List (Nat × Nat) → ℚ × List QPoint
  | _, time_mult, floww, [] => (time_mult, floww)
  | time, time_mult, floww, (tick, id) :: rest =>
      let time' := time + (tick : ℚ) / midi.ppqn * time_mult
      match midi.events id with
      | some (MIDIEvent.NoteOn _ note vel) =>
          midiTrackGo midi time' time_mult
            (floww ++ [(note, time', (note : ℚ), (vel : ℚ) / 127)]) rest
      | some (MIDIEvent.NoteOff _ note _) =>
          midiTrackGo midi time' time_mult
            (floww ++ [(note, time', (note : ℚ), 0)]) rest
      | some (MIDIEvent.SetTempo t) =>
          midiTrackGo midi time' ((t : ℚ) / 1000000) floww rest
      | _ => midiTrackGo midi time' time_mult floww rest

/-- The outer loop over tracks: `time` restarts at `0` per track, the tempo
multiplier persists. -/
def midiTracksGo (midi : MIDI) :
    ℚ → List QPoint → List (List (Nat × Nat)) → List QPoint
  | _, floww, [] => floww
  | time_mult, floww, track :: rest =>
      let r := midiTrackGo midi 0 time_mult floww track
      midiTracksGo midi r.1 r.2 rest

/-- `midi_to_floww`: tempo multiplier starts at `1.0` (60 bpm default). -/
def midi_to_floww (midi : MIDI) : List QPoint :=
  midiTracksGo midi 1 [] midi.tracks

theorem usizeMax_pos : 0 < usizeMax := by decide

/-- The messages a run extracts are exactly the `Msg` payloads, independent of
the destination state and array. -/
theorem unpacketGo_snd (map : Str → Option Nat) :
    ∀ (ps : List FlowwPacket) (c : Nat) (flowws : List FlowwW),
      (unpacketGo map c flowws ps).2 = msgsOf ps := by
  intro ps
  induction ps with
  | nil => intro c flowws; rfl
  | cons q rest ih =>
      intro c flowws
      cases q with
      | Msg m =>
          simp only [unpacketGo, msgsOf, List.filterMap_cons]
          simp only [msgsOf] at ih
          rw [ih]
      | Track n =>
          simp only [unpacketGo, msgsOf, List.filterMap_cons]
          simp only [msgsOf] at ih
          exact ih _ _
      | Point p =>
          simp only [unpacketGo, msgsOf, List.filterMap_cons]
          split
          · exact ih _ _
          · split
            · exact ih _ _
            · exact ih _ _

/-- Run composition: processing `p ++ q` equals processing `p`, then `q` from
the state and destinations `p` left behind. -/
theorem unpacketGo_append (map : Str → Option Nat) :
    ∀ (p q : List FlowwPacket) (c : Nat) (flowws : List FlowwW),
      unpacketGo map c flowws (p ++ q) =
        ((unpacketGo map (stateAfter map c p) (unpacketGo map c flowws p).1 q).1,
          (unpacketGo map c flowws p).2 ++
            (unpacketGo map (stateAfter map c p) (unpacketGo map c flowws p).1 q).2) := by
  intro p
  induction p with
  | nil => intro q c flowws; simp [unpacketGo, stateAfter]
  | cons x rest ih =>
      intro q c flowws
      cases x with
      | Msg m => simp [unpacketGo, stateAfter, ih]
      | Track n => simp [unpacketGo, stateAfter, ih]
      | Point pt =>
          simp only [List.cons_append, unpacketGo, stateAfter]
          split
          · exact ih q c flowws
          · split
            · exact ih q c flowws
            · exact ih q c _

/-- On a guarded batch the incoming destination index is irrelevant. -/
theorem unpacketGo_guarded (map : Str → Option Nat) :
    ∀ (q : List FlowwPacket), guarded q = true →
      ∀ (c c' : Nat) (flowws : List FlowwW),
        unpacketGo map c flowws q = unpacketGo map c' flowws q := by
  intro q
  induction q with
  | nil => intro _ c c' flowws; rfl
  | cons x rest ih =>
      intro hg c c' flowws
      cases x with
      | Msg m =>
          simp only [guarded] at hg
          simp [unpacketGo, ih hg c c' flowws]
      | Track n => simp [unpacketGo]
      | Point p => simp [guarded] at hg

/-- In the sentinel state, a run of `Point` packets is skipped wholesale. -/
theorem unpacketGo_sentinel_points (map : Str → Option Nat) :
    ∀ (pts : List FlowwPacket),
      (∀ q ∈ pts, ∃ p, q = FlowwPacket.Point p) →
      ∀ (flowws : List FlowwW) (tail : List FlowwPacket),
        unpacketGo map usizeMax flowws (pts ++ tail) =
          unpacketGo map usizeMax flowws tail := by
  intro pts
  induction pts with
  | nil => intro _ flowws tail; rfl
  | cons q rest ih =>
      intro hq flowws tail
      obtain ⟨p, rfl⟩ := hq q (List.mem_cons_self _ _)
      simp only [List.cons_append, unpacketGo, if_pos rfl]
      exact ih (fun x hx => hq x (List.mem_cons_of_mem _ hx)) flowws tail

/-- Reading `k` little-endian bytes undoes writing them, for values in
range, preserving the unconsumed tail. -/
theorem readBytes_encBytes :
    ∀ (k n : Nat), n < 256 ^ k → ∀ (rest : List Nat),
      readBytes k (encBytes k n ++ rest) = some (n, rest) := by
  intro k
  induction k with
  | zero =>
      intro n hn rest
      interval_cases n
      rfl
  | succ k ih =>
      intro n hn rest
      have hdiv : n / 256 < 256 ^ k := by
        rw [Nat.div_lt_iff_lt_mul (by norm_num : (0 : Nat) < 256)]
        calc n < 256 ^ (k + 1) := hn
        _ = 256 ^ k * 256 := by rw [pow_succ]
      simp only [encBytes, readBytes, List.cons_append, List.append_eq,
        ih (n / 256) hdiv rest, Option.map_some']
      rw [Nat.mod_add_div n 256]

/-- A read of `k` bytes fails on fewer than `k` bytes of input. -/
theorem readBytes_short :
    ∀ (bs : List Nat) (k : Nat), bs.length < k → readBytes k bs = none := by
  intro bs
  induction bs with
  | nil =>
      intro k hk
      cases k with
      | zero => exact absurd hk (by omega)
      | succ k => rfl
  | cons b rest ih =>
      intro k hk
      cases k with
      | zero => exact absurd hk (by omega)
      | succ k =>
          simp only [List.length_cons] at hk
          simp only [readBytes, ih k (by omega), Option.map_none']

/-- Reading back exactly the bytes just written. -/
theorem readChunk_append :
    ∀ (s rest : List Nat), readChunk s.length (s ++ rest) = some (s, rest) := by
  intro s
  induction s with
  | nil => intro rest; rfl
  | cons b bs ih =>
      intro rest
      simp only [List.length_cons, List.cons_append, List.append_eq, readChunk,
        ih rest, Option.map_some']

/-- `String` round trip, preserving the tail. -/
theorem readStr_encodeStr (s : Str) (h : s.length < 2 ^ 64) (rest : List Nat) :
    readStr (encodeStr s ++ rest) = some (s, rest) := by
  have h' : s.length < 256 ^ 8 := by norm_num at h ⊢; exact h
  simp only [encodeStr, encodeU64, List.append_assoc, readStr,
    readBytes_encBytes 8 s.length h' (s ++ rest)]
  exact readChunk_append s rest

/-- `Point` round trip, preserving the tail. -/
theorem readPointW_encodePointW (p : PointW) (h1 : p.1 < 2 ^ 64)
    (h2 : p.2.1 < 2 ^ 32) (h3 : p.2.2.1 < 2 ^ 32) (h4 : p.2.2.2 < 2 ^ 32)
    (rest : List Nat) :
    readPointW (encodePointW p ++ rest) = some (p, rest) := by
  have e64 : (2 : Nat) ^ 64 = 256 ^ 8 := by norm_num
  have e32 : (2 : Nat) ^ 32 = 256 ^ 4 := by norm_num
  rw [e64] at h1
  rw [e32] at h2 h3 h4
  simp only [encodePointW, encodeU64, encodeU32, List.append_assoc, readPointW,
    readBytes_encBytes 8 p.1 h1, readBytes_encBytes 4 p.2.1 h2,
    readBytes_encBytes 4 p.2.2.1 h3, readBytes_encBytes 4 p.2.2.2 h4]

/-- Single-packet round trip, preserving the tail. -/
theorem readPacket_encodePacket (pk : FlowwPacket) (h : validPacket pk = true)
    (rest : List Nat) :
    readPacket (encodePacket pk ++ rest) = some (pk, rest) := by
  have tag0 : (0 : Nat) < 256 ^ 4 := by norm_num
  have tag1 : (1 : Nat) < 256 ^ 4 := by norm_num
  have tag2 : (2 : Nat) < 256 ^ 4 := by norm_num
  cases pk with
  | Msg s =>
      simp only [validPacket, validStr, Bool.and_eq_true, decide_eq_true_eq,
        List.all_eq_true] at h
      simp [encodePacket, encodeU32, List.append_assoc, readPacket,
        readBytes_encBytes 4 0 tag0, readStr_encodeStr s h.1 rest]
  | Track s =>
      simp only [validPacket, validStr, Bool.and_eq_true, decide_eq_true_eq,
        List.all_eq_true] at h
      simp [encodePacket, encodeU32, List.append_assoc, readPacket,
        readBytes_encBytes 4 1 tag1, readStr_encodeStr s h.1 rest]
  | Point p =>
      simp only [validPacket, Bool.and_eq_true, decide_eq_true_eq] at h
      obtain ⟨⟨⟨h1, h2⟩, h3⟩, h4⟩ := h
      simp [encodePacket, encodeU32, List.append_assoc, readPacket,
        readBytes_encBytes 4 2 tag2,
        readPointW_encodePointW p h1 h2 h3 h4 rest]

/-- Batch-body round trip, preserving the tail. -/
theorem readPackets_encode :
    ∀ (ps : List FlowwPacket), (∀ p ∈ ps, validPacket p = true) →
      ∀ (rest : List Nat),
        readPackets ps.length ((ps.map encodePacket).flatten ++ rest) =
          some (ps, rest) := by
  intro ps
  induction ps with
  | nil => intro _ rest; rfl
  | cons pk ps ih =>
      intro h rest
      simp [List.length_cons, List.map_cons, List.flatten_cons,
        List.append_assoc, readPackets,
        readPacket_encodePacket pk (h pk (List.mem_cons_self _ _)),
        ih (fun x hx => h x (List.mem_cons_of_mem _ hx)) rest]

theorem qpoint_time (p : QPoint) : Timed.time p = p.2.1 := rfl

theorem qpoint_withTime (p : QPoint) (t : ℚ) :
    Timed.withTime p t = (p.1, t, p.2.2.1, p.2.2.2) := rfl

theorem qpoint_endt (p : QPoint) : Timed.endt p = p.2.1 := rfl

/-- Shifting preserves length. -/
theorem shift_time_length {α : Type} [Timed α] (l : List α) (t : ℚ) :
    (shift_time l t).length = l.length := by
  cases l with
  | nil => rfl
  | cons p rest => simp [shift_time]

/-- Adding a time to a clamped shift: `x + max s (-x) = max (s + x) 0`. -/
theorem add_max_neg (x s : ℚ) : x + max s (-x) = max (s + x) 0 := by
  rcases le_total s (-x) with h | h
  · rw [max_eq_right h, max_eq_right (by linarith : s + x ≤ 0)]
    ring
  · rw [max_eq_left h, max_eq_left (by linarith : (0 : ℚ) ≤ s + x)]
    ring

/-! ## Claim theorems -/

/-- C1 (counterexample).  The decoder does not start in `NoDestination`:
`unpacket` initialises `current = 0`, so a lone leading `Point` packet is
appended to destination slot 0 — the timeline is mutated, not dropped. -/
theorem unpacket_initial_state_not_noDestination :
    unpacket [[]] (fun _ => none) [FlowwPacket.Point (0, 0, 0, 0)] =
        ([[(0, 0, 0, 0)]], []) ∧
      ([[(0, 0, 0, 0)]] : List FlowwW) ≠ [[]] := by
  decide

/-- C1 (amended).  The decoder starts with destination index `0`: the
`Point` packets preceding the first `Track` packet of a batch are all
appended to destination slot 0 when the destination array is non-empty, and
are dropped only when it is empty (`List.modifyHead` covers both cases). -/
theorem unpacket_leading_points_go_to_slot_zero
    (map : Str → Option Nat) (pts : List FlowwPacket)
    (hpts : ∀ q ∈ pts, ∃ p, q = FlowwPacket.Point p) :
    ∀ (flowws : List FlowwW) (rest : List FlowwPacket),
      unpacket flowws map (pts ++ rest) =
        unpacket (flowws.modifyHead fun f => f ++ pointsOf pts) map rest := by
  induction pts with
  | nil =>
      intro flowws rest
      cases flowws <;> simp [pointsOf, List.modifyHead]
  | cons q pts ih =>
      intro flowws rest
      obtain ⟨p, rfl⟩ := hpts q (List.mem_cons_self _ _)
      have h0 : ¬((0 : Nat) = usizeMax) := by decide
      have ih' := ih fun x hx => hpts x (List.mem_cons_of_mem _ hx)
      cases flowws with
      | nil =>
          simp only [List.cons_append, unpacket, unpacketGo, if_neg h0,
            List.length_nil, Nat.le_refl, if_pos]
          have := ih' [] rest
          simp only [unpacket, List.modifyHead] at this ⊢
          exact this
      | cons f0 fs =>
          simp only [List.cons_append, unpacket, unpacketGo, if_neg h0,
            List.length_cons]
          rw [if_neg (by omega)]
          simp only [List.getD, List.get?, List.set, Option.getD, List.append_eq]
          have := ih' ((f0 ++ [p]) :: fs) rest
          simp only [unpacket, List.modifyHead] at this ⊢
          rw [this]
          simp [pointsOf, List.filterMap_cons]

/-- C1 (amended, witness). -/
theorem unpacket_leading_points_go_to_slot_zero_witness :
    unpacket [[(9, 9, 9, 9)]] (fun _ => none)
        ([FlowwPacket.Point (1, 2, 3, 4)] ++ [FlowwPacket.Msg [5]]) =
      unpacket
        (List.modifyHead (fun f => f ++ pointsOf [FlowwPacket.Point (1, 2, 3, 4)])
          [[(9, 9, 9, 9)]])
        (fun _ => none) [FlowwPacket.Msg [5]] :=
  unpacket_leading_points_go_to_slot_zero (fun _ => none)
    [FlowwPacket.Point (1, 2, 3, 4)]
    (by intro x hx; rw [List.mem_singleton] at hx; exact ⟨(1, 2, 3, 4), hx⟩)
    [[(9, 9, 9, 9)]] [FlowwPacket.Msg [5]]

/-- C2 (counterexample).  The destination state does not persist across
`unpacket` calls: with map `{"a" ↦ 1}`, processing `[Track "a"]` then
`[Point p]` in two calls routes the point to slot 0, while the concatenated
batch routes it to slot 1. -/
theorem unpacket_state_not_persistent :
    (unpacket
        (unpacket [[], []] (fun s => if s = [97] then some 1 else none)
            [FlowwPacket.Track [97]]).1
        (fun s => if s = [97] then some 1 else none)
        [FlowwPacket.Point (5, 0, 0, 0)]).1 ≠
      (unpacket [[], []] (fun s => if s = [97] then some 1 else none)
          ([FlowwPacket.Track [97]] ++ [FlowwPacket.Point (5, 0, 0, 0)])).1 := by
  decide

/-- C2 (amended).  `unpacket` keeps no state between calls (`current` is a
local initialised to 0 on every call): the extracted messages of a
concatenated batch always split as the concatenation of the two calls'
messages, and the full two-call run agrees with the one-call run exactly
when the second chunk is guarded, i.e. selects a destination with a `Track`
packet before its first `Point` packet. -/
theorem unpacket_chunking (flowws : List FlowwW) (map : Str → Option Nat)
    (p q : List FlowwPacket) :
    (unpacket flowws map (p ++ q)).2 =
        (unpacket flowws map p).2 ++ (unpacket flowws map q).2 ∧
      (guarded q = true →
        unpacket flowws map (p ++ q) =
          ((unpacket (unpacket flowws map p).1 map q).1,
            (unpacket flowws map p).2 ++
              (unpacket (unpacket flowws map p).1 map q).2)) := by
  have hA := unpacketGo_append map p q 0 flowws
  constructor
  · simp only [unpacket] at *
    rw [hA]
    simp [unpacketGo_snd]
  · intro hg
    simp only [unpacket] at *
    rw [hA, unpacketGo_guarded map q hg (stateAfter map 0 p) 0]

/-- C2 (amended, witness). -/
theorem unpacket_chunking_witness :
    unpacket [[], []] (fun s => if s = [97] then some 1 else none)
        ([FlowwPacket.Track [97], FlowwPacket.Point (5, 0, 0, 0)] ++
          [FlowwPacket.Track [97], FlowwPacket.Point (6, 0, 0, 0)]) =
      ((unpacket
          (unpacket [[], []] (fun s => if s = [97] then some 1 else none)
              [FlowwPacket.Track [97], FlowwPacket.Point (5, 0, 0, 0)]).1
          (fun s => if s = [97] then some 1 else none)
          [FlowwPacket.Track [97], FlowwPacket.Point (6, 0, 0, 0)]).1,
        (unpacket [[], []] (fun s => if s = [97] then some 1 else none)
            [FlowwPacket.Track [97], FlowwPacket.Point (5, 0, 0, 0)]).2 ++
          (unpacket
              (unpacket [[], []] (fun s => if s = [97] then some 1 else none)
                  [FlowwPacket.Track [97], FlowwPacket.Point (5, 0, 0, 0)]).1
              (fun s => if s = [97] then some 1 else none)
              [FlowwPacket.Track [97], FlowwPacket.Point (6, 0, 0, 0)]).2) :=
  (unpacket_chunking [[], []] (fun s => if s = [97] then some 1 else none)
      [FlowwPacket.Track [97], FlowwPacket.Point (5, 0, 0, 0)]
      [FlowwPacket.Track [97], FlowwPacket.Point (6, 0, 0, 0)]).2 (by decide)

/-- C8.  Track-resolution gating: from any state, a `Track` naming an
unknown destination sends the decoder to the sentinel state; the `Point`
packets that follow are dropped without touching any destination, and a
subsequent `Track` whose name resolves to index `j` resumes the run exactly
as if it had started there. -/
theorem unpacket_track_resolution_gating (map : Str → Option Nat)
    (cur : Nat) (flowws : List FlowwW) (bad good : Str) (j : Nat)
    (pts rest : List FlowwPacket)
    (hbad : map bad = none)
    (hpts : ∀ q ∈ pts, ∃ p, q = FlowwPacket.Point p)
    (hgood : map good = some j) :
    unpacketGo map cur flowws
        (FlowwPacket.Track bad :: (pts ++ FlowwPacket.Track good :: rest)) =
      unpacketGo map j flowws rest := by
  simp only [unpacketGo, hbad]
  rw [unpacketGo_sentinel_points map pts hpts flowws]
  simp only [unpacketGo, hgood]

/-- C3 (counterexample).  Corrupt bytes are not handled softly: the empty
(hence unparseable) input makes `decoded` return the error (`Err`, here
`none`), while a well-formed empty batch decodes to `some []` — the two
outcomes are observably different, and no empty message list is produced. -/
theorem decoded_corrupt_is_error :
    decoded [] = none ∧ decoded (encode []) = some [] := by
  decide

/-- C3 (amended).  On corrupt input the decoder fails hard, not softly:
`decoded` propagates the parse failure to the caller as an error value
(`Result::Err`, modelled `none`) — in particular every input shorter than
the eight-byte count prefix fails this way.  No destination timeline is
mutated by such a call, since `decoded` is a pure function of the bytes,
separate from `unpacket`. -/
theorem decoded_short_input_is_error (bs : List Nat) (h : bs.length < 8) :
    decoded bs = none := by
  simp only [decoded, readBytes_short bs 8 h]

/-- C3 (amended, witness). -/
theorem decoded_short_input_is_error_witness :
    decoded [253, 7, 11] = none :=
  decoded_short_input_is_error [253, 7, 11] (by decide)

/-- C4.  Wire round trip: for every packet sequence denotable by real
`FlowwPacket` values (in-range `usize` and `f32` payloads, representable
lengths), decoding the encoding succeeds and returns the sequence exactly —
same length, order, variants and payloads. -/
theorem decoded_encode_roundtrip (ps : List FlowwPacket)
    (hlen : ps.length < 2 ^ 64) (hv : ∀ p ∈ ps, validPacket p = true) :
    decoded (encode ps) = some ps := by
  have hlen' : ps.length < 256 ^ 8 := by norm_num at hlen ⊢; exact hlen
  have hbody := readPackets_encode ps hv []
  rw [List.append_nil] at hbody
  simp only [encode, encodeU64, decoded,
    readBytes_encBytes 8 ps.length hlen' (ps.map encodePacket).flatten, hbody,
    Option.map_some']

/-- C4 (witness). -/
theorem decoded_encode_roundtrip_witness :
    decoded (encode
        [FlowwPacket.Msg [98, 101, 97, 116], FlowwPacket.Track [107],
          FlowwPacket.Point (0, 1065353216, 0, 1065353216)]) =
      some
        [FlowwPacket.Msg [98, 101, 97, 116], FlowwPacket.Track [107],
          FlowwPacket.Point (0, 1065353216, 0, 1065353216)] :=
  decoded_encode_roundtrip
    [FlowwPacket.Msg [98, 101, 97, 116], FlowwPacket.Track [107],
      FlowwPacket.Point (0, 1065353216, 0, 1065353216)]
    (by decide) (by decide)

/-- C8 (witness). -/
theorem unpacket_track_resolution_gating_witness :
    unpacketGo (fun s => if s = [103] then some 0 else none) 0 [[]]
        (FlowwPacket.Track [98] ::
          ([FlowwPacket.Point (1, 1, 1, 1)] ++
            FlowwPacket.Track [103] :: [FlowwPacket.Point (2, 2, 2, 2)])) =
      unpacketGo (fun s => if s = [103] then some 0 else none) 0 [[]]
        [FlowwPacket.Point (2, 2, 2, 2)] :=
  unpacket_track_resolution_gating (fun s => if s = [103] then some 0 else none)
    0 [[]] [98] [103] 0 [FlowwPacket.Point (1, 1, 1, 1)]
    [FlowwPacket.Point (2, 2, 2, 2)] (by decide)
    (by intro x hx; rw [List.mem_singleton] at hx; exact ⟨(1, 1, 1, 1), hx⟩)
    (by decide)

/-- C6.  `shift_time` clamps non-negative: it is a no-op on the empty
timeline; on `p :: l` it adds `max t (-begin)` (with `begin` the first
element's time) to every point's time, so the first point's resulting time
is `≥ 0`, and whenever `t ≥ -begin` the applied shift is exactly `t`. -/
theorem shift_time_clamps (p : QPoint) (l : List QPoint) (t : ℚ) :
    shift_time ([] : List QPoint) t = [] ∧
      shift_time (p :: l) t =
        (p :: l).map
          (fun q => Timed.withTime q (Timed.time q + max t (-(Timed.time p)))) ∧
      0 ≤ Timed.time ((shift_time (p :: l) t).headI) ∧
      (-(Timed.time p) ≤ t →
        shift_time (p :: l) t =
          (p :: l).map fun q => Timed.withTime q (Timed.time q + t)) := by
  refine ⟨rfl, rfl, ?_, ?_⟩
  · have hh : (shift_time (p :: l) t).headI =
        Timed.withTime p (Timed.time p + max t (-(Timed.time p))) := by
      simp [shift_time, List.headI]
    rw [hh, qpoint_withTime, qpoint_time]
    have := le_max_right t (-(p.2.1))
    show 0 ≤ p.2.1 + max t (-p.2.1)
    linarith
  · intro h
    simp only [shift_time, max_eq_left h]

/-- C6 (witness). -/
theorem shift_time_clamps_witness :
    (-(Timed.time (((0, 3, 0, 0) : QPoint))) ≤ (-1 : ℚ)) ∧
      shift_time [((0, 3, 0, 0) : QPoint)] (-1) =
        [((0, 3, 0, 0) : QPoint)].map
          (fun q => Timed.withTime q (Timed.time q + (-1))) :=
  ⟨by rw [qpoint_time]; norm_num,
    (shift_time_clamps ((0, 3, 0, 0) : QPoint) [] (-1)).2.2.2
      (by rw [qpoint_time]; norm_num)⟩

/-- C7.  Rebase exactness: `start_from_zero` is a no-op on the empty
timeline, and on a non-empty one the first point's time becomes exactly
`0` — the first point's own time is cancelled, no clamping involved. -/
theorem start_from_zero_exact (p : QPoint) (l : List QPoint) :
    start_from_zero ([] : List QPoint) = [] ∧
      Timed.time ((start_from_zero (p :: l)).headI) = 0 := by
  refine ⟨rfl, ?_⟩
  have hh : (start_from_zero (p :: l)).headI =
      Timed.withTime p (Timed.time p + -(Timed.time p)) := by
    simp [start_from_zero, List.headI]
  rw [hh, qpoint_withTime, qpoint_time]
  show p.2.1 + -p.2.1 = 0
  ring

/-- C5 (counterexample).  Continuity fails as stated: fusing
`a = [(0, 1, 0, 0)]` with `b = [(3, 1, 0, 0)]` (the repository's own test
values) places `b`'s point at time `2`, not at the end-time `1` of `a`'s
last point — the clamped shift is added to `b`'s own first time. -/
theorem fuse_continuity_counterexample :
    fuse [((0, 1, 0, 0) : QPoint)] [((3, 1, 0, 0) : QPoint)] =
        [((0, 1, 0, 0) : QPoint), ((3, 2, 0, 0) : QPoint)] ∧
      Timed.time ((3, 2, 0, 0) : QPoint) ≠ Timed.endt ((0, 1, 0, 0) : QPoint) := by
  constructor
  · rw [fuse]
    norm_num [shift_time, qpoint_time, qpoint_withTime, qpoint_endt,
      List.getLast?]
  · rw [qpoint_time, qpoint_endt]
    norm_num

/-- C5 (amended).  Fuse length and continuity: `len (fuse a b) =
len a + len b`; if `a` is empty the result is `b` unchanged; and if both
are non-empty, the first point contributed by `b` has time
`max (last_end + b_first, 0)` — `b`'s own first time shifted by the
end-time of `a`'s last point under the clamped `shift_time` semantics (it
equals `last_end` exactly when `b`'s first time is `0` and
`last_end ≥ 0`). -/
theorem fuse_length_continuity (a b : List QPoint) :
    (fuse a b).length = a.length + b.length ∧
      (a = [] → fuse a b = b) ∧
      (∀ pa pb, a.getLast? = some pa → b.head? = some pb →
        ((fuse a b).drop a.length).head? =
          some (Timed.withTime pb
            (Timed.time pb + max (Timed.endt pa) (-(Timed.time pb)))) ∧
          ∀ q, ((fuse a b).drop a.length).head? = some q →
            Timed.time q = max (Timed.endt pa + Timed.time pb) 0) := by
  refine ⟨?_, ?_, ?_⟩
  · match ha : a.getLast? with
    | none =>
        rw [List.getLast?_eq_none_iff] at ha
        subst ha
        rw [fuse]
        simp
    | some pa =>
        rw [fuse, ha]
        simp [shift_time_length]
  · intro ha
    subst ha
    rw [fuse]
    rfl
  · intro pa pb ha hb
    rw [fuse, ha, List.drop_left]
    cases b with
    | nil => simp at hb
    | cons b0 bs =>
        rw [List.head?_cons, Option.some_inj] at hb
        subst hb
        constructor
        · simp [shift_time]
        · intro q2 hq
          simp only [shift_time, List.map_cons, List.head?_cons,
            Option.some_inj] at hq
          subst hq
          simp only [qpoint_withTime, qpoint_time, qpoint_endt]
          exact add_max_neg _ _

/-- C5 (amended, witness). -/
theorem fuse_length_continuity_witness :
    ([((0, 1, 0, 0) : QPoint)]).getLast? = some ((0, 1, 0, 0) : QPoint) ∧
      ([((3, 1, 0, 0) : QPoint)]).head? = some ((3, 1, 0, 0) : QPoint) ∧
      ∀ q,
        ((fuse [((0, 1, 0, 0) : QPoint)] [((3, 1, 0, 0) : QPoint)]).drop
              [((0, 1, 0, 0) : QPoint)].length).head? = some q →
          Timed.time q =
            max (Timed.endt ((0, 1, 0, 0) : QPoint) +
              Timed.time ((3, 1, 0, 0) : QPoint)) 0 :=
  ⟨rfl, rfl,
    ((fuse_length_continuity [((0, 1, 0, 0) : QPoint)]
          [((3, 1, 0, 0) : QPoint)]).2.2
        ((0, 1, 0, 0) : QPoint) ((3, 1, 0, 0) : QPoint) rfl rfl).2⟩

/-- Indexing a list extended by one element: below the old length the old
entry, at the old length the new one. -/
theorem getD_append_singleton {α : Type} (l : List α) (a d : α) (i : Nat) :
    (i < l.length → (l ++ [a]).getD i d = l.getD i d) ∧
      (l ++ [a]).getD l.length d = a := by
  constructor
  · intro hi
    simp only [List.getD_eq_getElem?_getD, List.getElem?_append_left hi]
  · simp only [List.getD_eq_getElem?_getD, List.getElem?_concat_length,
      Option.getD_some]

/-- `getD` hits a member for in-range indices. -/
theorem getD_mem {α : Type} (l : List α) (d : α) (i : Nat) (hi : i < l.length) :
    l.getD i d ∈ l := by
  simp only [List.getD_eq_getElem?_getD, List.getElem?_eq_getElem hi,
    Option.getD_some]
  exact List.getElem_mem hi

/-- Running operations from a consistent Sheet whose existing and incoming
add-names are jointly distinct keeps it consistent, and the final name list
is the old one followed by the added names. -/
theorem foldl_applyOp_consistent :
    ∀ (ops : List SheetOp) (s : FlowwSheet), consistent s →
      (s.names ++ addNames ops).Nodup →
      consistent (ops.foldl applyOp s) ∧
        (ops.foldl applyOp s).names = s.names ++ addNames ops := by
  intro ops
  induction ops with
  | nil =>
      intro s hc _
      exact ⟨hc, by simp [addNames]⟩
  | cons op rest ih =>
      intro s hc hnd
      obtain ⟨hlen, hmap⟩ := hc
      cases op with
      | add f n =>
          have hnotmem : n ∉ s.names := by
            simp only [addNames, List.nodup_append] at hnd
            intro hmem
            exact hnd.2.2 hmem (List.mem_cons_self _ _)
          have hc' : consistent (s.add f n) := by
            constructor
            · simp only [FlowwSheet.add, List.length_append,
                List.length_singleton]
              omega
            · intro i h
              simp only [FlowwSheet.add, List.length_append,
                List.length_singleton] at h ⊢
              by_cases hi : i < s.names.length
              · rw [(getD_append_singleton s.names n [] i).1 hi]
                simp only [mapInsert]
                rw [if_neg
                  (fun heq : s.names.getD i [] = n =>
                    hnotmem (heq ▸ getD_mem s.names [] i hi))]
                exact hmap i hi
              · have hi' : i = s.names.length := by omega
                subst hi'
                rw [(getD_append_singleton s.names n [] s.names.length).2]
                simp only [mapInsert, eq_self_iff_true, if_true,
                  Option.some_inj]
                exact hlen.symm
          have hnd' : ((s.add f n).names ++ addNames rest).Nodup := by
            simp only [FlowwSheet.add, List.append_assoc,
              List.singleton_append]
            simpa [addNames] using hnd
          have hres := ih (s.add f n) hc' hnd'
          simp only [List.foldl_cons, applyOp] at hres ⊢
          refine ⟨hres.1, ?_⟩
          rw [hres.2]
          simp [FlowwSheet.add, addNames]
      | reset n f =>
          have happ : (applyOp s (SheetOp.reset n f)).names = s.names ∧
              consistent (applyOp s (SheetOp.reset n f)) := by
            cases hm : s.map n with
            | some index =>
                refine ⟨by simp [applyOp, FlowwSheet.reset, hm], ?_, ?_⟩
                · simp [applyOp, FlowwSheet.reset, hm, hlen]
                · intro i hi
                  simp only [applyOp, FlowwSheet.reset, hm] at hi ⊢
                  exact hmap i hi
            | none =>
                have hid : applyOp s (SheetOp.reset n f) = s := by
                  simp [applyOp, FlowwSheet.reset, hm]
                rw [hid]
                exact ⟨rfl, hlen, hmap⟩
          have hnd' : ((applyOp s (SheetOp.reset n f)).names ++
              addNames rest).Nodup := by
            rw [happ.1]
            simpa [addNames] using hnd
          have hres := ih (applyOp s (SheetOp.reset n f)) happ.2 hnd'
          simp only [List.foldl_cons] at hres ⊢
          refine ⟨hres.1, ?_⟩
          rw [hres.2, happ.1]
          simp [addNames]

/-- C9.  Sheet consistency: every Sheet reachable from the empty Sheet by
`add`/`reset` operations whose added names are pairwise distinct satisfies
`len names = len flowws` and `map (names[i]) = i`; moreover `add` appends
and binds the next sequential index, and `reset` on a present name replaces
exactly the timeline at its index, leaving names and map (hence every index
and position) unchanged. -/
theorem sheet_consistency (ops : List SheetOp) (hnd : (addNames ops).Nodup) :
    consistent (runOps ops) ∧
      (∀ (s : FlowwSheet) (f : FlowwW) (n : Str),
        (s.add f n).names = s.names ++ [n] ∧
          (s.add f n).flowws = s.flowws ++ [f] ∧
          (s.add f n).map n = some s.flowws.length) ∧
      (∀ (s : FlowwSheet) (n : Str) (f : FlowwW) (i : Nat), s.map n = some i →
        ((s.reset n f).1).names = s.names ∧
          ((s.reset n f).1).map = s.map ∧
          ((s.reset n f).1).flowws = s.flowws.set i f) := by
  refine ⟨?_, ?_, ?_⟩
  · have hcnew : consistent FlowwSheet.new := by
      refine ⟨rfl, ?_⟩
      intro i hi
      simp [FlowwSheet.new] at hi
    have hnd' : (FlowwSheet.new.names ++ addNames ops).Nodup := by
      simpa [FlowwSheet.new] using hnd
    exact (foldl_applyOp_consistent ops FlowwSheet.new hcnew hnd').1
  · intro s f n
    refine ⟨rfl, rfl, ?_⟩
    simp [FlowwSheet.add, mapInsert]
  · intro s n f i hm
    simp [FlowwSheet.reset, hm]

/-- C9 (witness). -/
theorem sheet_consistency_witness :
    (addNames
        [SheetOp.add [] [97], SheetOp.add [(1, 1, 1, 1)] [98],
          SheetOp.reset [97] [(2, 2, 2, 2)]]).Nodup ∧
      consistent
        (runOps
          [SheetOp.add [] [97], SheetOp.add [(1, 1, 1, 1)] [98],
            SheetOp.reset [97] [(2, 2, 2, 2)]]) :=
  ⟨by decide,
    (sheet_consistency
        [SheetOp.add [] [97], SheetOp.add [(1, 1, 1, 1)] [98],
          SheetOp.reset [97] [(2, 2, 2, 2)]] (by decide)).1⟩

/-- Within one track, every point the loop appends carries its note number
as both `id` and `note` field; points already satisfying this keep it. -/
theorem midiTrackGo_note_eq_id (midi : MIDI) :
    ∀ (track : List (Nat × Nat)) (time tm : ℚ) (floww : List QPoint),
      (∀ p ∈ floww, (p.1 : ℚ) = p.2.2.1) →
      ∀ p ∈ (midiTrackGo midi time tm floww track).2, (p.1 : ℚ) = p.2.2.1 := by
  intro track
  induction track with
  | nil => intro time tm floww hinv p hp; exact hinv p hp
  | cons ev rest ih =>
      intro time tm floww hinv p hp
      obtain ⟨tick, id⟩ := ev
      simp only [midiTrackGo] at hp
      cases hev : midi.events id with
      | none =>
          rw [hev] at hp
          exact ih _ _ _ hinv p hp
      | some e =>
          cases e with
          | NoteOn ch note vel =>
              rw [hev] at hp
              refine ih _ _ _ ?_ p hp
              intro q hq
              rcases List.mem_append.1 hq with h | h
              · exact hinv q h
              · rw [List.mem_singleton] at h
                subst h
                rfl
          | NoteOff ch note vel =>
              rw [hev] at hp
              refine ih _ _ _ ?_ p hp
              intro q hq
              rcases List.mem_append.1 hq with h | h
              · exact hinv q h
              · rw [List.mem_singleton] at h
                subst h
                rfl
          | SetTempo t =>
              rw [hev] at hp
              exact ih _ _ _ hinv p hp
          | Other =>
              rw [hev] at hp
              exact ih _ _ _ hinv p hp

/-- The per-track invariant, carried over all tracks. -/
theorem midiTracksGo_note_eq_id (midi : MIDI) :
    ∀ (tracks : List (List (Nat × Nat))) (tm : ℚ) (floww : List QPoint),
      (∀ p ∈ floww, (p.1 : ℚ) = p.2.2.1) →
      ∀ p ∈ midiTracksGo midi tm floww tracks, (p.1 : ℚ) = p.2.2.1 := by
  intro tracks
  induction tracks with
  | nil => intro tm floww hinv p hp; exact hinv p hp
  | cons track rest ih =>
      intro tm floww hinv p hp
      simp only [midiTracksGo] at hp
      exact ih _ _ (midiTrackGo_note_eq_id midi track 0 tm floww hinv) p hp

/-- C10.  Every point `midi_to_floww` emits (all come from `NoteOn` or
`NoteOff` events) has its `id` field equal to the event's MIDI note number
and its `note` field equal to that same number cast to a float: the note
field always equals the cast of the id, so the id is determined by the
note rather than being an independent correlation tag. -/
theorem midi_to_floww_note_eq_id (midi : MIDI) :
    ∀ p ∈ midi_to_floww midi, (p.1 : ℚ) = p.2.2.1 := by
  intro p hp
  exact midiTracksGo_note_eq_id midi midi.tracks 1 []
    (fun q hq => absurd hq (List.not_mem_nil q)) p hp

/-- C10 (witness). -/
theorem midi_to_floww_note_eq_id_witness :
    (((60, 0, 60, 1) : QPoint) ∈
        midi_to_floww
          { ppqn := 1, tracks := [[(0, 0)]],
            events := fun i =>
              if i = 0 then some (MIDIEvent.NoteOn 0 60 127) else none }) ∧
      ((((60, 0, 60, 1) : QPoint).1 : ℚ) = ((60, 0, 60, 1) : QPoint).2.2.1) :=
  ⟨by
    have h :
        midi_to_floww
            { ppqn := 1, tracks := [[(0, 0)]],
              events := fun i =>
                if i = 0 then some (MIDIEvent.NoteOn 0 60 127) else none } =
          [((60, 0, 60, 1) : QPoint)] := by
      simp only [midi_to_floww, midiTracksGo, midiTrackGo]
      norm_num
    rw [h]
    exact List.mem_singleton.2 rfl,
    midi_to_floww_note_eq_id
      { ppqn := 1, tracks := [[(0, 0)]],
        events := fun i =>
          if i = 0 then some (MIDIEvent.NoteOn 0 60 127) else none }
      ((60, 0, 60, 1) : QPoint)
      (by
        have h :
            midi_to_floww
                { ppqn := 1, tracks := [[(0, 0)]],
                  events := fun i =>
                    if i = 0 then some (MIDIEvent.NoteOn 0 60 127) else none } =
              [((60, 0, 60, 1) : QPoint)] := by
          simp only [midi_to_floww, midiTracksGo, midiTrackGo]
          norm_num
        rw [h]
        exact List.mem_singleton.2 rfl)⟩

end Floww

